import Mathlib

/-!
Shallow embedding of the client-extraction and fuzzy-deduplication pipeline
of the Docx_to_struct repository (src/main.py, src/radiance_crm_app.py),
together with theorems settling the frozen claims about it.

Strings are modelled as `List Char`.  Python's `re` patterns used by the code
are embedded as explicit matchers over `List Char`, and the two external
collaborators (`dateparser.parse` and the docx2python document body) are
passed in as parameters.  Character-class predicates (`\w`, `\s`, `str.title`,
`str.lower`, …) are modelled on the ASCII and Latin-1 ranges, which cover the
French/Latin name domain the program is written for (spec §1); code points
above U+00FF are treated as plain uncased non-word characters.
-/

/-- Converts a Lean string literal to the `List Char` representation used
throughout this development. -/
def chars (s : String) : List Char := s.data

/-- Python `\s` (ASCII part): space, tab, newline, carriage return, vertical
tab, form feed. -/
def isSpaceCh (c : Char) : Bool :=
  c = ' ' || c = '\t' || c = '\n' || c = '\r' || c.val = 11 || c.val = 12

/-- Python `\d` on the program's ASCII digit data. -/
def isDigitCh (c : Char) : Bool := c.isDigit

/-- The date separator class `[/\-\.]` (equivalently `[/\.-]`) used by both
date regexes and by `is_valid_name`. -/
def isSepDMY (c : Char) : Bool := c = '/' || c = '.' || c = '-'

/-- The phone separator class `[\s\.-]` of the phone patterns. -/
def isSepPhone (c : Char) : Bool := isSpaceCh c || c = '.' || c = '-'

/-- The regex class `[a-zA-ZÀ-ÿ]` of `is_valid_name`: ASCII letters plus the
raw code-point range U+00C0..U+00FF (which, as a raw range, includes × and ÷). -/
def isLetterCh (c : Char) : Bool :=
  (('a' ≤ c && c ≤ 'z') || ('A' ≤ c && c ≤ 'Z')) || (0xC0 ≤ c.val && c.val ≤ 0xFF)

/-- Python `\w` restricted to ASCII and Latin-1: letters, digits, underscore;
in U+00C0..U+00FF everything is a word character except × (U+00D7) and
÷ (U+00F7). -/
def isWordCh (c : Char) : Bool :=
  (('a' ≤ c && c ≤ 'z') || ('A' ≤ c && c ≤ 'Z')) || isDigitCh c || c = '_' ||
    (0xC0 ≤ c.val && c.val ≤ 0xFF && c.val ≠ 0xD7 && c.val ≠ 0xF7)

/-- Cased characters (for `str.title`), restricted to ASCII/Latin-1 letters. -/
def isCasedCh (c : Char) : Bool :=
  (('a' ≤ c && c ≤ 'z') || ('A' ≤ c && c ≤ 'Z')) ||
    (0xC0 ≤ c.val && c.val ≤ 0xFF && c.val ≠ 0xD7 && c.val ≠ 0xF7)

/-- Uppercasing of one character on the ASCII/Latin-1 ranges, as performed by
Python `str.title`.  ÿ (U+00FF) uppercases to Ÿ (U+0178); ß is left unchanged
(its Python titlecase "Ss" expands to two characters and lies outside the
one-to-one Latin-1 scope of this model). -/
def upperChar (c : Char) : Char :=
  if 'a' ≤ c && c ≤ 'z' then Char.ofNat (c.toNat - 32)
  else if 0xE0 ≤ c.val && c.val ≤ 0xFE && c.val ≠ 0xF7 then Char.ofNat (c.toNat - 32)
  else if c.val = 0xFF then Char.ofNat 0x178
  else c

/-- Lowercasing of one character on the ASCII/Latin-1 ranges (Python
`str.lower` on the program's data). -/
def lowerChar (c : Char) : Char :=
  if 'A' ≤ c && c ≤ 'Z' then Char.ofNat (c.toNat + 32)
  else if 0xC0 ≤ c.val && c.val ≤ 0xDE && c.val ≠ 0xD7 then Char.ofNat (c.toNat + 32)
  else c

/-- Python `str.lower` (character-wise on the modelled ranges). -/
def lowerStr (l : List Char) : List Char := l.map lowerChar

/-- Python `str.strip()` (whitespace trim at both ends). -/
def strip (l : List Char) : List Char :=
  ((l.dropWhile isSpaceCh).reverse.dropWhile isSpaceCh).reverse

/-- Python `str.title()` helper: the boolean records whether the previous
character was cased. -/
def titleAux : Bool → List Char → List Char
  | _, [] => []
  | prevCased, c :: rest =>
    if isCasedCh c then
      (if prevCased then lowerChar c else upperChar c) :: titleAux true rest
    else
      c :: titleAux false rest

/-- Python `str.title()`: the first cased character of every run of cased
characters is uppercased, the following ones lowercased. -/
def title (l : List Char) : List Char := titleAux false l

/-- Replacement `re.sub(r'\s+', ' ', t)`: every maximal whitespace run
becomes a single space.  The boolean records whether the previous character
was whitespace. -/
def collapseWsAux : Bool → List Char → List Char
  | _, [] => []
  | prevSp, c :: rest =>
    if isSpaceCh c then
      (if prevSp then collapseWsAux true rest else ' ' :: collapseWsAux true rest)
    else c :: collapseWsAux false rest

/-- Replacement `re.sub(r'\s+', ' ', t)` over a whole string. -/
def collapseWs (l : List Char) : List Char := collapseWsAux false l

/-- Python `str.split()` (no argument): split on whitespace runs, dropping
empty pieces. -/
def splitWs (l : List Char) : List (List Char) :=
  (l.splitOnP isSpaceCh).filter (· ≠ [])

/-- Decimal digit character: `digitChar n` is the character for `n < 10`. -/
def digitChar (n : Nat) : Char := Char.ofNat (48 + n)

/-- Fuel-driven decimal rendering (the fuel makes the recursion structural so
that the kernel can evaluate it; `natToChars` supplies enough fuel). -/
def natToCharsGo : Nat → Nat → List Char
  | 0, _ => []
  | fuel + 1, n =>
    if n < 10 then [digitChar n]
    else natToCharsGo fuel (n / 10) ++ [digitChar (n % 10)]

/-- Python `str(n)` for a natural number. -/
def natToChars (n : Nat) : List Char := natToCharsGo (n + 1) n

/-- Python `int(s)` on a string of decimal digits. -/
def charsToNat (l : List Char) : Nat :=
  l.foldl (fun n c => n * 10 + (c.toNat - 48)) 0

/-- Python f-string formatting `f"{n:02d}"`: pad the decimal rendering with
leading zeros to width two. -/
def pad2 (n : Nat) : List Char :=
  let s := natToChars n
  if s.length < 2 then '0' :: s else s

/-- Python `str.zfill(2)` on an already-rendered digit string. -/
def zfill2 (s : List Char) : List Char :=
  if s.length < 2 then '0' :: s else s

/-- Lexicographic (code-point) comparison of strings, Python's `<=` on `str`,
which drives `sorted` on date strings. -/
def lexLe : List Char → List Char → Bool
  | [], _ => true
  | _ :: _, [] => false
  | a :: as, b :: bs => if a < b then true else if a = b then lexLe as bs else false

/-- The propositional form of `lexLe`, used as the sorting relation. -/
def LexLe (a b : List Char) : Prop := lexLe a b = true

instance : DecidableRel LexLe := fun a b => decidable_of_iff (lexLe a b = true) Iff.rfl

instance : IsTotal (List Char) LexLe := ⟨by
  intro a
  induction a with
  | nil => intro b; left; rfl
  | cons x xs ih =>
    intro b
    cases b with
    | nil => right; rfl
    | cons y ys =>
      by_cases hxy : x < y
      · left; simp [LexLe, lexLe, hxy]
      · by_cases hyx : y < x
        · right; simp [LexLe, lexLe, hyx]
        · have hxe : x = y := le_antisymm (not_lt.mp hyx) (not_lt.mp hxy)
          subst hxe
          rcases ih ys with h | h
          · left; simpa [LexLe, lexLe] using h
          · right; simpa [LexLe, lexLe] using h⟩

instance : IsTrans (List Char) LexLe := ⟨by
  intro a
  induction a with
  | nil => intro b c _ _; rfl
  | cons x xs ih =>
    intro b c hab hbc
    cases b with
    | nil => simp [LexLe, lexLe] at hab
    | cons y ys =>
      cases c with
      | nil => simp [LexLe, lexLe] at hbc
      | cons z zs =>
        simp only [LexLe, lexLe] at hab hbc ⊢
        by_cases hxy : x < y
        · by_cases hyz : y < z
          · simp [lt_trans hxy hyz]
          · by_cases hyez : y = z
            · subst hyez; simp [hxy]
            · simp [hyz, hyez] at hbc
        · by_cases hxey : x = y
          · subst hxey
            by_cases hxz : x < z
            · simp [hxz]
            · by_cases hxez : x = z
              · subst hxez
                simp only [lt_irrefl, if_false, if_pos rfl] at hab hbc ⊢
                exact ih _ _ hab hbc
              · simp [hxz, hxez] at hbc
          · simp [hxy, hxey] at hab⟩

instance : IsAntisymm (List Char) LexLe := ⟨by
  intro a
  induction a with
  | nil =>
    intro b _ hba
    cases b with
    | nil => rfl
    | cons y ys => simp [LexLe, lexLe] at hba
  | cons x xs ih =>
    intro b hab hba
    cases b with
    | nil => simp [LexLe, lexLe] at hab
    | cons y ys =>
      simp only [LexLe, lexLe] at hab hba
      by_cases hxy : x < y
      · have hnyx : ¬ y < x := asymm hxy
        simp [hnyx, (ne_of_lt hxy).symm] at hba
      · by_cases hxey : x = y
        · subst hxey
          simp only [lt_irrefl, if_false, if_pos rfl] at hab hba
          exact congrArg (x :: ·) (ih _ hab hba)
        · simp [hxy, hxey] at hab⟩

/-- Python `sorted(list(set(l)))` on a list of strings: deduplicate, then sort
in ascending lexicographic order.  (A Python `set` is unordered; since the
lexicographic order is total and antisymmetric, sorting after deduplication is
a faithful rendering of `sorted` applied to the set's elements.) -/
def sortedSet (l : List (List Char)) : List (List Char) :=
  l.dedup.insertionSort LexLe

/-! ### Phone-number regular expressions (src/main.py 63-94, app 56-73)

Each pattern is embedded as a matcher `List Char → Option Nat` returning the
length of the (leftmost-greedy, Python `re` semantics) match anchored at the
head of the list, or `none`.  `firstMatch` reproduces `re.search` (leftmost
position wins) and `subAll` reproduces `re.sub(pattern, '', text)` (removal of
every non-overlapping match, scanning left to right). -/

/-- Consumes exactly `k` leading digits: `\d{k}` at a fixed repetition count. -/
def needDigits (k : Nat) (l : List Char) : Option (List Char) :=
  if (l.take k).length = k && (l.take k).all isDigitCh then some (l.drop k) else none

/-- Consumes an optional separator `[\s\.-]?`.  The class contains no digit,
so the greedy choice never needs backtracking: when the next token requires a
digit, consuming an available separator is the only branch that can succeed. -/
def optPhoneSep (l : List Char) : List Char :=
  match l with
  | c :: rest => if isSepPhone c then rest else l
  | [] => l

/-- Pattern `0\d{9}`. -/
def matchP1 (l : List Char) : Option Nat :=
  match l with
  | c :: rest => if c = '0' && (rest.take 9).length = 9 && (rest.take 9).all isDigitCh
      then some 10 else none
  | [] => none

/-- Pattern `0\d{2}[\s\.-]?\d{2}[\s\.-]?\d{2}[\s\.-]?\d{2}[\s\.-]?\d{2}`
(four repetitions of optional separator + two digits after the leading
`0\d{2}`). -/
def matchP2 (l : List Char) : Option Nat :=
  match l with
  | c :: rest =>
    if c = '0' then
      match needDigits 2 rest with
      | none => none
      | some r1 =>
        match needDigits 2 (optPhoneSep r1) with
        | none => none
        | some r2 =>
          match needDigits 2 (optPhoneSep r2) with
          | none => none
          | some r3 =>
            match needDigits 2 (optPhoneSep r3) with
            | none => none
            | some r4 =>
              match needDigits 2 (optPhoneSep r4) with
              | none => none
              | some r5 => some (l.length - r5.length)
    else none
  | [] => none

/-- Backtracking over the group sizes of `\d{2,4}` sequences: the pattern
`\+?\d{2,4}[\s\.-]?\d{2,4}[\s\.-]?\d{2,4}[\s\.-]?\d{2,4}` tries, in Python's
greedy depth-first order, 4 then 3 then 2 digits per group.  `n` counts the
groups still to match. -/
def p3Groups : Nat → List Char → Option (List Char)
  | 0, _ => none
  | 1, l => needDigits 4 l <|> needDigits 3 l <|> needDigits 2 l
  | n + 2, l =>
    ((needDigits 4 l).bind fun r => p3Groups (n + 1) (optPhoneSep r)) <|>
    ((needDigits 3 l).bind fun r => p3Groups (n + 1) (optPhoneSep r)) <|>
    ((needDigits 2 l).bind fun r => p3Groups (n + 1) (optPhoneSep r))

/-- Pattern `\+?\d{2,4}[\s\.-]?\d{2,4}[\s\.-]?\d{2,4}[\s\.-]?\d{2,4}`. -/
def matchP3 (l : List Char) : Option Nat :=
  match l with
  | '+' :: rest => (p3Groups 4 rest).map (fun rem => 1 + (rest.length - rem.length))
  | _ => (p3Groups 4 l).map (fun rem => l.length - rem.length)

/-- Pattern `\d{9,}`: a maximal run of at least nine digits. -/
def matchP4 (l : List Char) : Option Nat :=
  let run := l.takeWhile isDigitCh
  if run.length ≥ 9 then some run.length else none

/-- Reproduction of `re.search`: the matched substring at the leftmost position
where the matcher succeeds. -/
def firstMatch (m : List Char → Option Nat) : List Char → Option (List Char)
  | [] => match m [] with
    | some n => some (List.take n [])
    | none => none
  | c :: rest => match m (c :: rest) with
    | some n => some ((c :: rest).take n)
    | none => firstMatch m rest

/-- Fuel-driven core of `re.sub(pattern, '', text)`: removes every
non-overlapping match, scanning left to right.  Every pattern used here
matches at least one character, so `l.length` fuel suffices. -/
def subAllGo (m : List Char → Option Nat) : Nat → List Char → List Char
  | 0, l => l
  | _ + 1, [] => []
  | fuel + 1, c :: rest =>
    match m (c :: rest) with
    | some n => subAllGo m fuel ((c :: rest).drop n)
    | none => c :: subAllGo m fuel rest

/-- Reproduction of `re.sub(pattern, '', text)`. -/
def subAll (m : List Char → Option Nat) (l : List Char) : List Char :=
  subAllGo m l.length l

/-- Function `normalize_phone` (main.py 42-60, app 49-53): keep only the
digits, and only when at least nine remain. -/
def normalize_phone (l : List Char) : List Char :=
  let digits := l.filter isDigitCh
  if digits.length ≥ 9 then digits else []

/-- The ordered phone patterns of `extract_phone_from_text`. -/
def phonePatterns : List (List Char → Option Nat) :=
  [matchP1, matchP2, matchP3, matchP4]

/-- Loop body of `extract_phone_from_text` (main.py 63-94, app 56-73): try the
patterns in order; at the first one whose match normalizes to a nine-or-more
digit phone, return the text with every occurrence of that pattern removed
(and stripped) together with the phone; otherwise fall through. -/
def extractPhoneGo (t : List Char) : List (List Char → Option Nat) → List Char × List Char
  | [] => (t, [])
  | m :: ms =>
    match firstMatch m t with
    | some grp =>
      let candidate := normalize_phone grp
      if candidate ≠ [] then (strip (subAll m t), candidate)
      else extractPhoneGo t ms
    | none => extractPhoneGo t ms

/-- Function `extract_phone_from_text`: returns `(clean_text, phone)`. -/
def extract_phone_from_text (t : List Char) : List Char × List Char :=
  extractPhoneGo t phonePatterns

/-! ### Name validation and parsing (src/main.py 97-183, app 76-112) -/

/-- The leading-date pattern `^\d{1,2}[/\-\.]\d{1,2}` of `is_valid_name`.
`\d{1,2}` is greedy; since the separator class contains no digit the match
exists iff either two digits + separator + digit or one digit + separator +
digit prefixes the text. -/
def leadingDateLike : List Char → Bool
  | a :: b :: c :: d :: _ =>
    isDigitCh a && ((isDigitCh b && isSepDMY c && isDigitCh d) || (isSepDMY b && isDigitCh c))
  | [a, b, c] => isDigitCh a && isSepDMY b && isDigitCh c
  | _ => false

/-- Function `is_valid_name` (main.py 97-132, app 76-90).  The full-string
class check renders `^[\d\s/\-\.]+$` (the text is already stripped, so `$`
coincides with end-of-string). -/
def is_valid_name (t : List Char) : Bool :=
  let t := strip t
  if t = [] then false
  else if t.all (fun c => isDigitCh c || isSpaceCh c || c = '/' || c = '-' || c = '.') then false
  else if leadingDateLike t then false
  else if t.length < 2 then false
  else t.any isLetterCh

/-- Replacement `re.sub(r'[^\w\s\-]', ' ', t)` of `parse_name`. -/
def nonWordToSpace (l : List Char) : List Char :=
  l.map (fun c => if isWordCh c || isSpaceCh c || c = '-' then c else ' ')

/-- The cleaned, phone-stripped text that `parse_name` tokenizes: phone
removal followed by punctuation cleaning, whitespace collapsing and
stripping. -/
def cleanedOf (t : List Char) : List Char :=
  strip (collapseWs (nonWordToSpace (extract_phone_from_text (strip t)).1))

/-- Function `parse_name` (identical in main.py 135-183 and app 93-112):
returns `(nom, prenom, telephone)`. -/
def parse_name (t : List Char) : List Char × List Char × List Char :=
  if t = [] then ([], [], [])
  else
    let t := strip t
    if ¬ is_valid_name t then ([], [], [])
    else
      let phone := (extract_phone_from_text t).2
      let cleaned := cleanedOf t
      if cleaned = [] then ([], [], phone)
      else if ¬ is_valid_name cleaned then ([], [], [])
      else
        match splitWs cleaned with
        | [] => ([], [], phone)
        | [w] => (title w, [], phone)
        | w1 :: w2 :: _ => (title w1, title w2, phone)

/-! ### Date extraction (src/main.py 211-267, app 129-158)

The external collaborator `dateparser.parse` is passed in as a parameter
`dp : List Char → Option PDate`; a parse result is a Python `datetime`, whose
`day`/`month` fields always denote a valid calendar date.  `dateparser`
returns `None` on unparseable tokens (modelled by `none`). -/

/-- The relevant fields of a Python `datetime` produced by `dateparser`. -/
structure PDate where
  day : Nat
  month : Nat
  year : Nat
deriving DecidableEq, Repr

/-- A `dateparser` stand-in that fails on every token. -/
def dpNone : List Char → Option PDate := fun _ => none

/-- Canonical `DD/MM/YYYY` rendering from numeric fields, as produced both by
`strftime('%d/%m/%Y')` and by `f"{day:02d}/{month:02d}/{year}"` (the two agree
on the four-digit years 2000..2030 that pass the filter guarding every use). -/
def fmtDMY (d m y : Nat) : List Char :=
  pad2 d ++ '/' :: (pad2 m ++ '/' :: natToChars y)

/-- Normalization of the token separators `, ; \n \r` to `|`, splitting,
trimming, and dropping of empty parts (main.py 225-231, app 132-134). -/
def dateTokens (t : List Char) : List (List Char) :=
  ((t.map (fun c => if c = ',' || c = ';' || c = '\n' || c = '\r' then '|' else c)).splitOn
      '|' |>.map strip).filter (· ≠ [])

/-- Anchored match of main.py's fallback regex
`(\d{1,2})[/\.-](\d{1,2})[/\.-](\d{2,4})`, returning the three matched digit
strings.  `\d{1,2}` is greedy but the separator class contains no digit, so a
day/month group matches exactly when the maximal leading digit run has length
one or two and is followed by a separator; the final `\d{2,4}` takes up to
four digits of a run of at least two. -/
def dateMatchMain (l : List Char) : Option (List Char × List Char × List Char) :=
  let dayRun := l.takeWhile isDigitCh
  if dayRun.length = 0 || dayRun.length > 2 then none
  else
    match l.drop dayRun.length with
    | s1 :: l2 =>
      if isSepDMY s1 then
        let monRun := l2.takeWhile isDigitCh
        if monRun.length = 0 || monRun.length > 2 then none
        else
          match l2.drop monRun.length with
          | s2 :: l3 =>
            if isSepDMY s2 then
              let yrRun := l3.takeWhile isDigitCh
              if yrRun.length ≥ 2 then some (dayRun, monRun, yrRun.take 4) else none
            else none
          | [] => none
      else none
    | [] => none

/-- Reproduction of `re.search` for main.py's fallback date regex: leftmost
matching position wins. -/
def dateSearchMain : List Char → Option (List Char × List Char × List Char)
  | [] => none
  | c :: rest =>
    match dateMatchMain (c :: rest) with
    | some r => some r
    | none => dateSearchMain rest

/-- Anchored match of the app's fallback regex
`(\d{1,2})[/\-\.](\d{1,2})(?:[/\-\.](\d{2,4}))?`, returning the values
`int(group)`; the year group is optional (the greedy optional group falls
back to matching nothing when no separator-plus-two-digit-run follows the
month). -/
def dateMatchApp (l : List Char) : Option (Nat × Nat × Option Nat) :=
  let dayRun := l.takeWhile isDigitCh
  if dayRun.length = 0 || dayRun.length > 2 then none
  else
    match l.drop dayRun.length with
    | s1 :: l2 =>
      if isSepDMY s1 then
        let monRun := l2.takeWhile isDigitCh
        if monRun.length = 0 then none
        else
          let mon := monRun.take 2
          let l3 := l2.drop mon.length
          let yOpt : Option Nat :=
            match l3 with
            | s2 :: l4 =>
              if isSepDMY s2 then
                let yrRun := l4.takeWhile isDigitCh
                if yrRun.length ≥ 2 then some (charsToNat (yrRun.take 4)) else none
              else none
            | [] => none
          some (charsToNat dayRun, charsToNat mon, yOpt)
      else none
    | [] => none

/-- Reproduction of `re.search` for the app's fallback date regex. -/
def dateSearchApp : List Char → Option (Nat × Nat × Option Nat)
  | [] => none
  | c :: rest =>
    match dateMatchApp (c :: rest) with
    | some r => some r
    | none => dateSearchApp rest

namespace MainPy

/-- Function `parse_dates` of src/main.py 211-267: per token, try `dateparser`
(year window [2000, 2030], output `strftime('%d/%m/%Y')`); on `None` fall back
to the regex, expand a two-digit year with the `< 50 → 2000s, else 1900s`
pivot, filter on the year window only, and render with `zfill(2)`.  The
accepted dates are appended in order and returned without deduplication. -/
def parse_dates (dp : List Char → Option PDate) (t : List Char) : List (List Char) :=
  if t = [] then []
  else
    (dateTokens t).flatMap fun tok =>
      match dp tok with
      | some pd =>
        if 2000 ≤ pd.year ∧ pd.year ≤ 2030 then [fmtDMY pd.day pd.month pd.year] else []
      | none =>
        match dateSearchMain tok with
        | some (day, mon, yr) =>
          let yr' := if yr.length = 2 then
              (if charsToNat yr < 50 then '2' :: '0' :: yr else '1' :: '9' :: yr)
            else yr
          if 2000 ≤ charsToNat yr' ∧ charsToNat yr' ≤ 2030 then
            [zfill2 day ++ '/' :: (zfill2 mon ++ '/' :: yr')]
          else []
        | none => []

end MainPy

/-- The year value of the app's fallback branch (app 153-155):
`int(group(3))` when the optional year group matched, else
`datetime.now().year` (passed in as `currentYear`); values below 100 are
bumped to the 2000s. -/
def appYear (currentYear : Nat) (yOpt : Option Nat) : Nat :=
  let y0 := yOpt.getD currentYear
  if y0 < 100 then y0 + 2000 else y0

namespace AppPy

/-- Function `parse_dates` of src/radiance_crm_app.py 129-158: per token, try
`dateparser` (year window, `continue` on success); on `None` fall back to the
regex with an optional year defaulting to `datetime.now().year` (passed in as
`currentYear`), bump years below 100 to the 2000s, check day, month and year
ranges, and render with `f"{day:02d}/{month:02d}/{year}"`.  The final
`list(set(dates))` is modelled as deduplication (a Python set retains exactly
the distinct elements; its iteration order is arbitrary, and no property
proved here depends on the order chosen). -/
def parse_dates (dp : List Char → Option PDate) (currentYear : Nat) (t : List Char) :
    List (List Char) :=
  if t = [] then []
  else
    ((dateTokens t).flatMap fun tok =>
      match dp tok with
      | some pd =>
        if 2000 ≤ pd.year ∧ pd.year ≤ 2030 then [fmtDMY pd.day pd.month pd.year] else []
      | none =>
        match dateSearchApp tok with
        | some (day, mon, yOpt) =>
          if 1 ≤ day ∧ day ≤ 31 ∧ 1 ≤ mon ∧ mon ≤ 12 ∧
              2000 ≤ appYear currentYear yOpt ∧ appYear currentYear yOpt ≤ 2030 then
            [fmtDMY day mon (appYear currentYear yOpt)]
          else []
        | none => []).dedup

end AppPy

/-! ### Cell flattening (src/main.py 186-208, app 115-126) -/

/-- A docx2python table-cell value: a string, an arbitrarily nested list, or
some other leaf object, modelled by its `str(·)` rendering together with its
Python truthiness. -/
inductive Cell where
  | str (s : List Char)
  | list (l : List Cell)
  | other (text : List Char) (truthy : Bool)

/-- Python `' '.join(fragments)` on an already-filtered fragment list. -/
def joinSp : List (List Char) → List Char
  | [] => []
  | [x] => x
  | x :: y :: rest => x ++ ' ' :: joinSp (y :: rest)

mutual

/-- Function `flatten_cell_content` (main.py 186-208, app 115-126): strings
are stripped, lists are flattened recursively keeping only non-empty
fragments and joining them with single spaces, other leaves are rendered by
`str(·)` and stripped when truthy (falsy values yield the empty string). -/
def flatten_cell_content : Cell → List Char
  | .str s => strip s
  | .list l => joinSp (flattenEach l)
  | .other text truthy => if truthy then strip text else []

/-- The `result` list built by the `list` branch of `flatten_cell_content`:
flattened items, keeping only the non-empty ones. -/
def flattenEach : List Cell → List (List Char)
  | [] => []
  | c :: cs =>
    let f := flatten_cell_content c
    if f = [] then flattenEach cs else f :: flattenEach cs

end

/-! ### Table walking (src/main.py 270-370) -/

/-- Function `split_clients_in_cell` (main.py 270-290): split on runs of
line breaks and semicolons, trim, drop empties. -/
def split_clients_in_cell (t : List Char) : List (List Char) :=
  if t = [] then []
  else ((t.splitOnP (fun c => c = '\n' || c = '\r' || c = ';')).map strip).filter (· ≠ [])

/-- A raw client record (the dict built at main.py 354-361). -/
structure Client where
  nom : List Char
  prenom : List Char
  telephone : List Char
  dates : List (List Char)
  nb_seances : Nat
  source_file : List Char
deriving DecidableEq, Repr

namespace MainPy

/-- Processing of one table row (main.py 321-363): column 0 is name text,
every later column contributes dates; one record per parsed client fragment,
all sharing the row's sorted, deduplicated date set. -/
def processRow (dp : List Char → Option PDate) (filename : List Char) (row : List Cell) :
    List Client :=
  match row with
  | [] => []
  | nameCell :: dateCells =>
    let name_cell := flatten_cell_content nameCell
    if name_cell = [] || strip name_cell = [] then []
    else
      let all_dates := dateCells.flatMap fun cell =>
        let date_cell := flatten_cell_content cell
        if date_cell = [] then [] else parse_dates dp date_cell
      let unique_dates := sortedSet all_dates
      (split_clients_in_cell name_cell).filterMap fun client_text =>
        match parse_name client_text with
        | (nom, prenom, telephone) =>
          if nom = [] then none
          else some { nom := nom, prenom := prenom, telephone := telephone,
                      dates := unique_dates, nb_seances := unique_dates.length,
                      source_file := filename }

/-- Function `extract_clients_from_docx` (main.py 297-370) with the
docx2python call factored out: the document body is a list of tables, each a
list of rows of cells. -/
def extract_clients_from_body (dp : List Char → Option PDate) (filename : List Char)
    (body : List (List (List Cell))) : List Client :=
  body.flatMap fun table =>
    if table.isEmpty then [] else table.flatMap fun row => processRow dp filename row

/-- Function `process_all_docx_files` (main.py 373-409) over already-read
document bodies: concatenation of the per-document extractions in order. -/
def process_all (dp : List Char → Option PDate)
    (docs : List (List Char × List (List (List Cell)))) : List Client :=
  docs.flatMap fun doc => extract_clients_from_body dp doc.1 doc.2

end MainPy

/-! ### Fuzzy deduplication (src/main.py 416-493, app 226-266)

The outer/inner loops of `merge_duplicate_clients` are identical in the two
files; they differ only in the `calculate_similarity` they call, so the
machinery is parameterized by the similarity function.  Clusters additionally
record their seed and the absorbed `(index, record)` pairs, which the Python
dicts do not carry; `merge_duplicate_clients` projects the clusters to the
records the Python function returns. -/

/-- Fuel-driven longest-common-subsequence length; `lcsLen` supplies
`a.length + b.length` fuel, which the recursion never exhausts. -/
def lcsGo : Nat → List Char → List Char → Nat
  | 0, _, _ => 0
  | _ + 1, [], _ => 0
  | _ + 1, _ :: _, [] => 0
  | fuel + 1, a :: as, b :: bs =>
    if a = b then lcsGo fuel as bs + 1
    else max (lcsGo fuel as (b :: bs)) (lcsGo fuel (a :: as) bs)

/-- Longest-common-subsequence length of two strings. -/
def lcsLen (a b : List Char) : Nat := lcsGo (a.length + b.length) a b

/-- Model of `rapidfuzz.fuzz.ratio`: the normalized Indel similarity
`100 · (1 − dist/(|a|+|b|))` with `dist = |a|+|b| − 2·lcs`, i.e.
`200·lcs/(|a|+|b|)`, as an exact rational (rapidfuzz computes the same value
in floating point); two empty strings score 100. -/
def ratioScore (a b : List Char) : ℚ :=
  if a.length + b.length = 0 then 100
  else 200 * (lcsLen a b : ℚ) / ((a.length : ℚ) + (b.length : ℚ))

namespace MainPy

/-- Function `calculate_similarity` of src/main.py 416-430: the Levenshtein
ratio of the case-folded `"nom prenom"` strings — and nothing else: this
variant applies no phone-equality boost. -/
def calculate_similarity (c1 c2 : Client) : ℚ :=
  ratioScore (lowerStr (strip (c1.nom ++ ' ' :: c1.prenom)))
    (lowerStr (strip (c2.nom ++ ' ' :: c2.prenom)))

end MainPy

namespace AppPy

/-- Function `calculate_similarity` of src/radiance_crm_app.py 226-232: the
name ratio, forced up to at least 95 when both phones are equal and
non-empty. -/
def calculate_similarity (c1 c2 : Client) : ℚ :=
  let name_score := ratioScore (lowerStr (strip (c1.nom ++ ' ' :: c1.prenom)))
    (lowerStr (strip (c2.nom ++ ' ' :: c2.prenom)))
  if c1.telephone ≠ [] ∧ c2.telephone ≠ [] ∧ c1.telephone = c2.telephone then
    max name_score 95
  else name_score

end AppPy

/-- The merged-client accumulator built at main.py 457-463 / app 245-250
(keys `nom`, `prenom`, `telephone`, `dates`, `source_files`; the Python date
set is modelled as the list of inserted dates, deduplicated at the final
`sorted(list(set(...)))` step, which yields the same element set). -/
structure MergedAcc where
  nom : List Char
  prenom : List Char
  telephone : List Char
  dates : List (List Char)
  source_files : List (List Char)
deriving DecidableEq, Repr

/-- A merged client record as returned by `merge_duplicate_clients`
(main.py 485-489 adds `nb_seances` and sorts the dates). -/
structure MergedClient where
  nom : List Char
  prenom : List Char
  telephone : List Char
  dates : List (List Char)
  source_files : List (List Char)
  nb_seances : Nat
deriving DecidableEq, Repr

/-- Initial accumulator for a cluster seeded with `client1`
(main.py 457-463). -/
def initMerged (c : Client) : MergedAcc :=
  { nom := c.nom, prenom := c.prenom, telephone := c.telephone,
    dates := c.dates, source_files := [c.source_file] }

/-- Merging of `client2` into the accumulator (main.py 473-479): union the
dates and source files, keep the longer phone. -/
def absorb (acc : MergedAcc) (c2 : Client) : MergedAcc :=
  { acc with
    dates := acc.dates ++ c2.dates,
    source_files := acc.source_files ++ [c2.source_file],
    telephone := if acc.telephone.length < c2.telephone.length then c2.telephone
      else acc.telephone }

/-- Finalization of a cluster (main.py 485-487): sort the deduplicated date
set and derive `nb_seances`. -/
def finalizeAcc (acc : MergedAcc) : MergedClient :=
  let ds := sortedSet acc.dates
  { nom := acc.nom, prenom := acc.prenom, telephone := acc.telephone,
    dates := ds, source_files := acc.source_files.dedup, nb_seances := ds.length }

/-- One output cluster, instrumented with its seed and the absorbed
later records. -/
structure Cluster where
  seed : Nat × Client
  absorbed : List (Nat × Client)
  record : MergedClient
deriving DecidableEq, Repr

/-- The member indices of a cluster: the seed's index followed by the
absorbed indices in scan order. -/
def Cluster.memberIdx (cl : Cluster) : List Nat :=
  cl.seed.1 :: cl.absorbed.map Prod.fst

/-- Inner scan of `merge_duplicate_clients` (main.py 466-481): walk the
records after the seed, skip already-consumed indices, and absorb every
record whose similarity to the seed meets the threshold, marking it
consumed.  Returns the accumulator, the absorbed pairs, and the grown
consumed set. -/
def mergeScan (sim : Client → Client → ℚ) (threshold : ℚ) (client1 : Client) :
    List (Nat × Client) → MergedAcc → List (Nat × Client) → List Nat →
    MergedAcc × List (Nat × Client) × List Nat
  | [], acc, absorbedAcc, processed => (acc, absorbedAcc, processed)
  | (j, c2) :: rest, acc, absorbedAcc, processed =>
    if j ∈ processed then mergeScan sim threshold client1 rest acc absorbedAcc processed
    else if threshold ≤ sim client1 c2 then
      mergeScan sim threshold client1 rest (absorb acc c2) (absorbedAcc ++ [(j, c2)])
        (j :: processed)
    else mergeScan sim threshold client1 rest acc absorbedAcc processed

/-- Outer loop of `merge_duplicate_clients` (main.py 452-489): scan the
enumerated records in order, skip consumed indices, seed a cluster from each
remaining record, absorb from the strictly later records, and mark the seed
consumed. -/
def mergeAux (sim : Client → Client → ℚ) (threshold : ℚ) :
    List (Nat × Client) → List Nat → List Cluster
  | [], _ => []
  | (i, c1) :: rest, processed =>
    if i ∈ processed then mergeAux sim threshold rest processed
    else
      match mergeScan sim threshold c1 rest (initMerged c1) [] processed with
      | (acc, absorbedAcc, processed') =>
        { seed := (i, c1), absorbed := absorbedAcc, record := finalizeAcc acc } ::
          mergeAux sim threshold rest (i :: processed')

/-- The instrumented clustering over the enumerated input. -/
def mergeClusters (sim : Client → Client → ℚ) (clients : List Client) (threshold : ℚ) :
    List Cluster :=
  mergeAux sim threshold clients.enum []

/-- Function `merge_duplicate_clients` (main.py 433-493, app 235-266),
parameterized by the similarity function each file plugs in; returns the
merged records. -/
def merge_duplicate_clients (sim : Client → Client → ℚ) (clients : List Client)
    (threshold : ℚ) : List MergedClient :=
  if clients = [] then []
  else (mergeClusters sim clients threshold).map Cluster.record

/-- Function `filter_loyal_clients` (main.py 500-515, app 269-273): keep the
records with at least `min_sessions` sessions. -/
def filter_loyal_clients (clients : List MergedClient) (min_sessions : Nat) :
    List MergedClient :=
  clients.filter (fun c => min_sessions ≤ c.nb_seances)

/-- Combination of two already-joined fragment strings with a single space,
skipping empty sides. -/
def combineSp (a b : List Char) : List Char :=
  if a = [] then b else if b = [] then a else a ++ ' ' :: b

mutual

/-- Depth-first leaf fragments of a cell under the flattening contract as
amended: strings contribute their trimmed text, nested lists contribute
their items' fragments in order, and a non-string non-list leaf contributes
its trimmed textual form only when truthy — a falsy leaf (Python `0`,
`None`, `False`, an empty container) contributes the empty string, because
the code's coercion is `str(cell_data).strip() if cell_data else ""`.  This
is the point on which the code deviates from the claimed unconditional
coercion (see `leavesOfClaim`). -/
def leavesOf : Cell → List (List Char)
  | .str s => [strip s]
  | .list l => leavesOfList l
  | .other text truthy => [if truthy then strip text else []]

/-- Depth-first leaf fragments of a list of cells (amended contract). -/
def leavesOfList : List Cell → List (List Char)
  | [] => []
  | c :: cs => leavesOf c ++ leavesOfList cs

end

/-- The flattening contract as amended: the depth-first join of the
non-empty leaf fragments of `leavesOf` with single spaces, where truthy
leaves are coerced to their trimmed textual form and falsy leaves yield the
empty string (and are therefore dropped from the join). -/
def flatten_cell_content_amended (c : Cell) : List Char :=
  joinSp ((leavesOf c).filter (· ≠ []))

mutual

/-- Depth-first leaf fragments of a cell under the claim's original wording
(spec §4.1): "non-string/non-sequence leaf values are coerced to their
textual form" — unconditionally, with no exception for falsy leaves. -/
def leavesOfClaim : Cell → List (List Char)
  | .str s => [strip s]
  | .list l => leavesOfListClaim l
  | .other text _ => [strip text]

/-- Depth-first leaf fragments of a list of cells (original claim wording). -/
def leavesOfListClaim : List Cell → List (List Char)
  | [] => []
  | c :: cs => leavesOfClaim c ++ leavesOfListClaim cs

end

/-- Modelled from the claim and spec §4.1 as stated: "produces a single
string, depth-first, joining only non-empty flattened fragments with a
single space; non-string/non-sequence leaf values are coerced to their
textual form" — every such leaf, truthy or not. -/
def flatten_cell_content_claim (c : Cell) : List Char :=
  joinSp ((leavesOfClaim c).filter (· ≠ []))

/-- A merged record with a given session count (used for the concrete
example of the loyalty-filter claim). -/
def exMerged (n : Nat) : MergedClient :=
  { nom := chars (r"X"), prenom := [], telephone := [], dates := [],
    source_files := [], nb_seances := n }

/-- Witness for claim C7 at a concrete record. -/
def exClient : Client :=
  { nom := chars (r"Dupont"), prenom := chars (r"Marie"), telephone := [],
    dates := [chars (r"01/02/2024")], nb_seances := 1,
    source_file := chars (r"f1.docx") }


/-- A second concrete client, used by witnesses that need an absorbed pair. -/
def exClient2 : Client :=
  { nom := chars (r"Dupond"), prenom := chars (r"Marie"), telephone := [],
    dates := [chars (r"02/02/2024")], nb_seances := 1,
    source_file := chars (r"f2.docx") }

/-- The cluster formed when `exClient` absorbs `exClient2` under a constant
similarity of 100 and threshold 85. -/
def exCluster : Cluster :=
  { seed := (0, exClient), absorbed := [(1, exClient2)],
    record := finalizeAcc (absorb (initMerged exClient) exClient2) }

/-- Concrete clients with equal non-empty phones but very different names
(name ratio far below every threshold). -/
def exPhoneA : Client :=
  { nom := chars (r"Dupont"), prenom := [], telephone := chars (r"0601020304"),
    dates := [], nb_seances := 0, source_file := [] }

/-- Companion record to `exPhoneA` with a dissimilar name and the same
phone. -/
def exPhoneB : Client :=
  { nom := chars (r"Martin"), prenom := [], telephone := chars (r"0601020304"),
    dates := [], nb_seances := 0, source_file := [] }

/-- A one-document batch whose single table row yields one raw client. -/
def exDocs : List (List Char × List (List (List Cell))) :=
  [(chars (r"f1.docx"),
    [[[Cell.str (chars (r"Dupont Marie")), Cell.str (chars (r"01/02/2024"))]]])]

/-- The merged record the pipeline produces from `exDocs`. -/
def exMergedOut : MergedClient :=
  { nom := chars (r"Dupont"), prenom := chars (r"Marie"), telephone := [],
    dates := [chars (r"01/02/2024")], source_files := [chars (r"f1.docx")],
    nb_seances := 1 }

/-- Chronological key of a `DD/MM/YYYY` string: `year·10000 + month·100 +
day`, i.e. the value whose ascending order is chronological order. -/
def chronVal (s : List Char) : Nat :=
  charsToNat (s.drop 6) * 10000 + charsToNat ((s.take 5).drop 3) * 100 +
    charsToNat (s.take 2)

/-! ### Helper lemmas about `sortedSet` and `joinSp` -/

theorem sortedSet_perm_dedup (l : List (List Char)) : List.Perm (sortedSet l) l.dedup :=
  List.perm_insertionSort LexLe l.dedup

theorem toFinset_dedup' (l : List (List Char)) : l.dedup.toFinset = l.toFinset := by
  ext x
  simp [List.mem_toFinset, List.mem_dedup]

theorem sortedSet_toFinset (l : List (List Char)) : (sortedSet l).toFinset = l.toFinset := by
  rw [List.toFinset_eq_of_perm _ _ (sortedSet_perm_dedup l), toFinset_dedup']

theorem sortedSet_length (l : List (List Char)) : (sortedSet l).length = l.dedup.length :=
  (sortedSet_perm_dedup l).length_eq

theorem sortedSet_nodup (l : List (List Char)) : (sortedSet l).Nodup :=
  ((sortedSet_perm_dedup l).symm.nodup_iff).mp (List.nodup_dedup l)

theorem sortedSet_sorted (l : List (List Char)) : (sortedSet l).Sorted LexLe :=
  List.sorted_insertionSort LexLe l.dedup

theorem sortedSet_length_card (l : List (List Char)) :
    (sortedSet l).length = l.toFinset.card := by
  rw [sortedSet_length, List.card_toFinset]

/-- Joining a non-empty list of fragments that has either two elements or one
non-empty element yields a non-empty string. -/
theorem joinSp_ne_nil : ∀ L : List (List Char), L ≠ [] → (∀ x ∈ L, x ≠ []) →
    joinSp L ≠ [] := by
  intro L hL hmem
  match L with
  | [x] =>
    simpa [joinSp] using hmem x (by simp)
  | x :: y :: rest =>
    simp only [joinSp]
    intro h
    rcases List.append_eq_nil.mp h with ⟨_, h2⟩
    exact List.cons_ne_nil _ _ h2



theorem joinSp_append : ∀ (A B : List (List Char)), (∀ a ∈ A, a ≠ []) →
    (∀ b ∈ B, b ≠ []) → joinSp (A ++ B) = combineSp (joinSp A) (joinSp B) := by
  intro A
  induction A with
  | nil =>
    intro B _ _
    simp [joinSp, combineSp]
  | cons x A' ih =>
    intro B hA hB
    have hx : x ≠ [] := hA x (by simp)
    cases A' with
    | nil =>
      cases B with
      | nil => simp [joinSp, combineSp, hx]
      | cons y r =>
        have hJB : joinSp (y :: r) ≠ [] :=
          joinSp_ne_nil _ (List.cons_ne_nil _ _) hB
        simp [joinSp, combineSp, hx, hJB]
    | cons x' A'' =>
      have hA' : ∀ a ∈ x' :: A'', a ≠ [] := fun a ha => hA a (by simp [ha])
      have ihe := ih B hA' hB
      have hu : joinSp (x' :: A'') ≠ [] :=
        joinSp_ne_nil _ (List.cons_ne_nil _ _) hA'
      have hstep : joinSp ((x :: x' :: A'') ++ B) =
          x ++ ' ' :: joinSp ((x' :: A'') ++ B) := rfl
      have hstep2 : joinSp (x :: x' :: A'') = x ++ ' ' :: joinSp (x' :: A'') := rfl
      rw [hstep, ihe, hstep2]
      by_cases hJB : joinSp B = []
      · simp [combineSp, hJB, hu, hx]
      · have hxu : x ++ ' ' :: joinSp (x' :: A'') ≠ [] := by
          intro h
          rcases List.append_eq_nil.mp h with ⟨_, h2⟩
          exact List.cons_ne_nil _ _ h2
        simp only [combineSp, if_neg hu, if_neg hJB, if_neg hxu]
        simp [List.append_assoc]

/-! ### Claim C8: `flatten_cell_content` refines the spec contract -/




mutual

theorem flattenCell_eq_spec : ∀ c : Cell,
    flatten_cell_content c = joinSp ((leavesOf c).filter (· ≠ []))
  | .str s => by
    by_cases h : strip s = [] <;>
      simp [flatten_cell_content, leavesOf, joinSp, h]
  | .other text truthy => by
    by_cases ht : truthy <;> by_cases h : strip text = [] <;>
      simp [flatten_cell_content, leavesOf, joinSp, ht, h]
  | .list l => by
    have h := flattenList_eq_spec l
    simpa [flatten_cell_content, leavesOf] using h.2

theorem flattenList_eq_spec : ∀ cs : List Cell,
    (∀ x ∈ flattenEach cs, x ≠ []) ∧
      joinSp (flattenEach cs) = joinSp ((leavesOfList cs).filter (· ≠ []))
  | [] => by simp [flattenEach, leavesOfList]
  | c :: cs' => by
    have hc := flattenCell_eq_spec c
    have ih := flattenList_eq_spec cs'
    constructor
    · intro x hx
      by_cases hf : flatten_cell_content c = []
      · exact ih.1 x (by simpa [flattenEach, hf] using hx)
      · rcases (by simpa [flattenEach, hf] using hx : x = flatten_cell_content c ∨
            x ∈ flattenEach cs') with h | h
        · simpa [h] using hf
        · exact ih.1 x h
    · have hsplit : (leavesOfList (c :: cs')).filter (· ≠ []) =
          (leavesOf c).filter (· ≠ []) ++ (leavesOfList cs').filter (· ≠ []) := by
        simp [leavesOfList, List.filter_append]
      have hmemA : ∀ a ∈ (leavesOf c).filter (· ≠ []), a ≠ [] := by
        intro a ha
        have := (List.mem_filter.mp ha).2
        simpa using this
      have hmemB : ∀ b ∈ (leavesOfList cs').filter (· ≠ []), b ≠ [] := by
        intro b hb
        have := (List.mem_filter.mp hb).2
        simpa using this
      rw [hsplit, joinSp_append _ _ hmemA hmemB, ← hc, ← ih.2]
      by_cases hf : flatten_cell_content c = []
      · simp [flattenEach, hf, combineSp]
      · cases hrest : flattenEach cs' with
        | nil => simp [flattenEach, hf, hrest, joinSp, combineSp]
        | cons z rest =>
          have hJ : joinSp (z :: rest) ≠ [] := by
            apply joinSp_ne_nil _ (List.cons_ne_nil _ _)
            intro x hx
            exact ih.1 x (by rw [hrest]; exact hx)
          simp [flattenEach, hf, hrest, joinSp, combineSp, hJ]

end

/-- Counterexample to claim C8 as stated: a falsy non-string, non-list leaf
is not coerced to its textual form.  For the Python leaf `0` (textual form
`"0"`, falsy) the code returns the empty string, while the claimed contract
— unconditional coercion — returns `"0"`. -/
theorem claim_C8_counterexample :
    flatten_cell_content (Cell.other (chars (r"0")) false) = [] ∧
    flatten_cell_content_claim (Cell.other (chars (r"0")) false) = chars (r"0") ∧
    flatten_cell_content (Cell.other (chars (r"0")) false) ≠
      flatten_cell_content_claim (Cell.other (chars (r"0")) false) := by
  have h1 : flatten_cell_content (Cell.other (chars (r"0")) false) = [] := by
    simp [flatten_cell_content]
  have h2 : flatten_cell_content_claim (Cell.other (chars (r"0")) false) =
      chars (r"0") := by
    simp only [flatten_cell_content_claim, leavesOfClaim]
    decide
  refine ⟨h1, h2, ?_⟩
  rw [h1, h2]
  decide

/-- Claim C8 (amended on the falsy-leaf point the counterexample forces):
for every cell value — a string, an arbitrarily nested list of such values,
or any other leaf — `flatten_cell_content` is total (the Lean function never
fails, matching "never raises") and returns the depth-first join of the
non-empty flattened fragments separated by a single space, where truthy
non-string, non-list leaves are coerced to their textual form and falsy
leaves yield the empty string: it agrees with
`flatten_cell_content_amended`. -/
theorem claim_C8_flatten_refines_spec (c : Cell) :
    flatten_cell_content c = flatten_cell_content_amended c :=
  flattenCell_eq_spec c

/-! ### Claim C9: the loyalty filter -/


/-- Claim C9: `filter_loyal_clients` returns exactly the subsequence of its
input consisting of the records with `nb_seances ≥ min_sessions`, preserving
order and leaving records unmodified; in particular merged records with
session counts [1, 2, 3] and `min_sessions = 2` yield exactly [2, 3]. -/
theorem claim_C9_filter_loyal :
    (∀ (cs : List MergedClient) (m : Nat),
      (filter_loyal_clients cs m).Sublist cs ∧
        ∀ c, c ∈ filter_loyal_clients cs m ↔ c ∈ cs ∧ m ≤ c.nb_seances) ∧
    (filter_loyal_clients [exMerged 1, exMerged 2, exMerged 3] 2).map
        MergedClient.nb_seances = [2, 3] := by
  refine ⟨fun cs m => ⟨List.filter_sublist cs, fun c => ?_⟩, by decide⟩
  simp [filter_loyal_clients, List.mem_filter]

/-! ### Claim C5: deduplication of parsed dates -/

/-- Counterexample to claim C5 as stated for src/main.py: its `parse_dates`
returns the accepted dates without deduplication, so a token repeated in the
input produces a duplicated output list. -/
theorem claim_C5_counterexample :
    MainPy.parse_dates dpNone (chars (r"01/02/2020,01/02/2020")) =
      [chars (r"01/02/2020"), chars (r"01/02/2020")] ∧
    ¬ (MainPy.parse_dates dpNone (chars (r"01/02/2020,01/02/2020"))).Nodup := by
  constructor
  · decide
  · decide

/-- Claim C5 (amended to the variant that satisfies it): the app's
`parse_dates` ends with `list(set(dates))`, so its result never contains
duplicate date strings, for every `dateparser` behaviour, current year and
input text. -/
theorem claim_C5_app_parse_dates_nodup (dp : List Char → Option PDate)
    (currentYear : Nat) (t : List Char) :
    (AppPy.parse_dates dp currentYear t).Nodup := by
  unfold AppPy.parse_dates
  split
  · exact List.nodup_nil
  · exact List.nodup_dedup _

/-! ### Claim C7: deduplication is idempotent on singletons -/

/-- Claim C7: for every single client record `r` (and any similarity function
and threshold), `merge_duplicate_clients [r]` returns a one-element list
whose record carries the same last name, first name and phone, the same
visit-date set, and a session count equal to `r`'s number of distinct
dates. -/
theorem claim_C7_merge_singleton (sim : Client → Client → ℚ) (r : Client) (t : ℚ) :
    (merge_duplicate_clients sim [r] t).length = 1 ∧
    ∀ m ∈ merge_duplicate_clients sim [r] t,
      m.nom = r.nom ∧ m.prenom = r.prenom ∧ m.telephone = r.telephone ∧
        m.dates.toFinset = r.dates.toFinset ∧ m.nb_seances = r.dates.toFinset.card := by
  have key : merge_duplicate_clients sim [r] t = [finalizeAcc (initMerged r)] := by
    simp [merge_duplicate_clients, mergeClusters, List.enum, List.enumFrom,
      mergeAux, mergeScan]
  rw [key]
  refine ⟨rfl, fun m hm => ?_⟩
  have hm' : m = finalizeAcc (initMerged r) := by simpa using hm
  subst hm'
  refine ⟨rfl, rfl, rfl, ?_, ?_⟩
  · simpa [finalizeAcc, initMerged] using sortedSet_toFinset r.dates
  · simpa [finalizeAcc, initMerged] using sortedSet_length_card r.dates


theorem claim_C7_witness :
    ∀ m ∈ merge_duplicate_clients (fun _ _ => (100 : ℚ)) [exClient] 85,
      m.nom = exClient.nom ∧ m.prenom = exClient.prenom ∧
        m.telephone = exClient.telephone ∧
        m.dates.toFinset = exClient.dates.toFinset ∧
        m.nb_seances = exClient.dates.toFinset.card :=
  (claim_C7_merge_singleton (fun _ _ => (100 : ℚ)) exClient 85).2

/-! ### Claim C2: the greedy clustering partitions the input -/

/-- The inner scan never changes the seed's last name carried by the
accumulator. -/
theorem mergeScan_nom (sim : Client → Client → ℚ) (t : ℚ) (c1 : Client) :
    ∀ (rest : List (Nat × Client)) (acc : MergedAcc) (absorbedAcc : List (Nat × Client))
      (p : List Nat), (mergeScan sim t c1 rest acc absorbedAcc p).1.nom = acc.nom := by
  intro rest
  induction rest with
  | nil => intro acc absorbedAcc p; rfl
  | cons hd rest' ih =>
    intro acc absorbedAcc p
    obtain ⟨j, c2⟩ := hd
    by_cases hj : j ∈ p
    · simpa [mergeScan, hj] using ih acc absorbedAcc p
    · by_cases hs : t ≤ sim c1 c2
      · simpa [mergeScan, hj, hs, absorb] using
          ih (absorb acc c2) (absorbedAcc ++ [(j, c2)]) (j :: p)
      · simpa [mergeScan, hj, hs] using ih acc absorbedAcc p

/-- Full bookkeeping of the inner scan: the absorbed pairs are appended to the
accumulator, their indices are exactly the new consumed markers (pushed in
reverse), they are distinct, and each comes from the scanned suffix, was not
yet consumed, and meets the threshold against the seed. -/
theorem mergeScan_spec (sim : Client → Client → ℚ) (t : ℚ) (c1 : Client) :
    ∀ (rest : List (Nat × Client)) (acc : MergedAcc) (absorbedAcc : List (Nat × Client))
      (p : List Nat),
    ∃ newPairs : List (Nat × Client),
      (mergeScan sim t c1 rest acc absorbedAcc p).2.1 = absorbedAcc ++ newPairs ∧
      (mergeScan sim t c1 rest acc absorbedAcc p).2.2 = (newPairs.map Prod.fst).reverse ++ p ∧
      (newPairs.map Prod.fst).Nodup ∧
      ∀ q ∈ newPairs, q ∈ rest ∧ q.1 ∉ p ∧ t ≤ sim c1 q.2 := by
  intro rest
  induction rest with
  | nil =>
    intro acc absorbedAcc p
    exact ⟨[], by simp [mergeScan], by simp [mergeScan], by simp, by simp⟩
  | cons hd rest' ih =>
    intro acc absorbedAcc p
    obtain ⟨j, c2⟩ := hd
    by_cases hj : j ∈ p
    · obtain ⟨np, h1, h2, h3, h4⟩ := ih acc absorbedAcc p
      refine ⟨np, ?_, ?_, h3, ?_⟩
      · simpa [mergeScan, hj] using h1
      · simpa [mergeScan, hj] using h2
      · intro q hq
        obtain ⟨hmem, hnp, hsim⟩ := h4 q hq
        exact ⟨List.mem_cons_of_mem _ hmem, hnp, hsim⟩
    · by_cases hs : t ≤ sim c1 c2
      · obtain ⟨np, h1, h2, h3, h4⟩ := ih (absorb acc c2) (absorbedAcc ++ [(j, c2)]) (j :: p)
        have hjnp : j ∉ np.map Prod.fst := by
          intro hmem
          obtain ⟨q, hq, hqj⟩ := List.mem_map.mp hmem
          exact (h4 q hq).2.1 (by simp [hqj])
        refine ⟨(j, c2) :: np, ?_, ?_, ?_, ?_⟩
        · simpa [mergeScan, hj, hs, List.append_assoc] using h1
        · rw [show (mergeScan sim t c1 ((j, c2) :: rest') acc absorbedAcc p).2.2 =
            (mergeScan sim t c1 rest' (absorb acc c2) (absorbedAcc ++ [(j, c2)])
              (j :: p)).2.2 from by simp [mergeScan, hj, hs], h2]
          simp [List.append_assoc]
        · exact List.nodup_cons.mpr ⟨hjnp, h3⟩
        · intro q hq
          rcases List.mem_cons.mp hq with hq | hq
          · subst hq
            exact ⟨List.mem_cons_self _ _, hj, hs⟩
          · obtain ⟨hmem, hnp, hsim⟩ := h4 q hq
            exact ⟨List.mem_cons_of_mem _ hmem, fun hc => hnp (List.mem_cons_of_mem _ hc),
              hsim⟩
      · obtain ⟨np, h1, h2, h3, h4⟩ := ih acc absorbedAcc p
        refine ⟨np, ?_, ?_, h3, ?_⟩
        · simpa [mergeScan, hj, hs] using h1
        · simpa [mergeScan, hj, hs] using h2
        · intro q hq
          obtain ⟨hmem, hnp, hsim⟩ := h4 q hq
          exact ⟨List.mem_cons_of_mem _ hmem, hnp, hsim⟩

/-- Core counting invariant of the outer loop: over a suffix with distinct
indices and a duplicate-free consumed set, every index of the suffix that is
not yet consumed ends up in exactly one cluster, and no other index appears. -/
theorem mergeAux_count (sim : Client → Client → ℚ) (t : ℚ) :
    ∀ (l : List (Nat × Client)) (p : List Nat), (l.map Prod.fst).Nodup → p.Nodup →
    ∀ k : Nat, List.count k ((mergeAux sim t l p).flatMap Cluster.memberIdx) =
      if k ∈ l.map Prod.fst ∧ k ∉ p then 1 else 0 := by
  intro l
  induction l with
  | nil => intro p _ _ k; simp [mergeAux]
  | cons hd rest ih =>
    intro p hnd hp k
    obtain ⟨i, c1⟩ := hd
    have hnd' : (i :: rest.map Prod.fst).Nodup := hnd
    have hirest : i ∉ rest.map Prod.fst := (List.nodup_cons.mp hnd').1
    have hndrest : (rest.map Prod.fst).Nodup := (List.nodup_cons.mp hnd').2
    by_cases hip : i ∈ p
    · rw [show mergeAux sim t ((i, c1) :: rest) p = mergeAux sim t rest p from by
        simp [mergeAux, hip]]
      rw [ih p hndrest hp k]
      by_cases hk : k = i
      · subst hk
        simp [hip, hirest]
      · have hiff : (k ∈ List.map Prod.fst ((i, c1) :: rest) ∧ k ∉ p) ↔
            (k ∈ List.map Prod.fst rest ∧ k ∉ p) := by
          rw [List.map_cons]
          simp [List.mem_cons, hk]
        rw [if_congr hiff rfl rfl]
    · rcases hsc : mergeScan sim t c1 rest (initMerged c1) [] p with ⟨a0, abs0, p0⟩
      obtain ⟨np, h1, h2, h3, h4⟩ := mergeScan_spec sim t c1 rest (initMerged c1) [] p
      rw [hsc] at h1 h2
      simp only at h1 h2
      have habs : np = abs0 := by simpa using h1.symm
      subst habs
      have hp0 : p0 = (np.map Prod.fst).reverse ++ p := h2
      subst hp0
      have hnpfst : ∀ a ∈ np.map Prod.fst, a ∈ rest.map Prod.fst ∧ a ∉ p := by
        intro a ha
        obtain ⟨q, hq, hqa⟩ := List.mem_map.mp ha
        obtain ⟨hmem, hnp, _⟩ := h4 q hq
        exact ⟨hqa ▸ List.mem_map_of_mem Prod.fst hmem, hqa ▸ hnp⟩
      have hinp : i ∉ np.map Prod.fst := fun hc => hirest (hnpfst i hc).1
      have hrec : (i :: ((np.map Prod.fst).reverse ++ p)).Nodup := by
        refine List.nodup_cons.mpr ⟨?_, ?_⟩
        · intro hc
          rcases List.mem_append.mp hc with hc | hc
          · exact hinp (List.mem_reverse.mp hc)
          · exact hip hc
        · refine List.nodup_append.mpr ⟨List.nodup_reverse.mpr h3, hp, ?_⟩
          intro a ha hain
          exact (hnpfst a (List.mem_reverse.mp ha)).2 hain
      have hstep : mergeAux sim t ((i, c1) :: rest) p =
          { seed := (i, c1), absorbed := np, record := finalizeAcc a0 } ::
            mergeAux sim t rest (i :: ((np.map Prod.fst).reverse ++ p)) := by
        simp [mergeAux, hip, hsc]
      rw [hstep]
      rw [List.flatMap_cons, List.count_append]
      rw [ih (i :: ((np.map Prod.fst).reverse ++ p)) hndrest hrec k]
      by_cases hk : k = i
      · subst hk
        have hcnt : List.count k (Cluster.memberIdx
            { seed := (k, c1), absorbed := np, record := finalizeAcc a0 }) = 1 := by
          simp [Cluster.memberIdx, List.count_cons,
            List.count_eq_zero_of_not_mem hinp]
        rw [hcnt]
        simp [hip, hirest]
      · have hcnt : List.count k (Cluster.memberIdx
            { seed := (i, c1), absorbed := np, record := finalizeAcc a0 }) =
            List.count k (np.map Prod.fst) := by
          simp [Cluster.memberIdx, List.count_cons, Ne.symm hk]
        rw [hcnt]
        by_cases hknp : k ∈ np.map Prod.fst
        · rw [List.count_eq_one_of_mem h3 hknp]
          have hkrec : k ∈ i :: ((np.map Prod.fst).reverse ++ p) := by
            simp [List.mem_reverse.mpr hknp]
          simp only [hkrec, not_true_eq_false, and_false, if_false]
          have : k ∈ rest.map Prod.fst ∧ k ∉ p := hnpfst k hknp
          simp [List.mem_cons, hk, this.1, this.2]
        · rw [List.count_eq_zero_of_not_mem hknp]
          have hkrec : k ∈ i :: ((np.map Prod.fst).reverse ++ p) ↔ k ∈ p := by
            simp only [List.mem_cons, List.mem_append, List.mem_reverse]
            constructor
            · rintro (h | h | h)
              · exact absurd h hk
              · exact absurd h hknp
              · exact h
            · exact fun h => Or.inr (Or.inr h)
          by_cases hkp : k ∈ p
          · simp [hkrec, hkp]
          · simp only [hkrec, hkp, not_false_eq_true, and_true, zero_add]
            have hiff : (k ∈ List.map Prod.fst ((i, c1) :: rest)) ↔
                (k ∈ List.map Prod.fst rest) := by
              rw [List.map_cons]
              simp [List.mem_cons, hk]
            rw [if_congr hiff rfl rfl]

/-- Structural description of every cluster the outer loop emits: its seed is
an element of the scanned suffix, its record is a finalized accumulator that
carries the seed's last name, and every absorbed pair is a strictly later
(by index) record meeting the threshold against the seed. -/
theorem mergeAux_cluster_spec (sim : Client → Client → ℚ) (t : ℚ) :
    ∀ (l : List (Nat × Client)) (p : List Nat),
      List.Pairwise (fun a b : Nat × Client => a.1 < b.1) l →
    ∀ cl ∈ mergeAux sim t l p,
      cl.seed ∈ l ∧
      (∃ acc : MergedAcc, cl.record = finalizeAcc acc ∧ acc.nom = cl.seed.2.nom) ∧
      ∀ q ∈ cl.absorbed, cl.seed.1 < q.1 ∧ t ≤ sim cl.seed.2 q.2 := by
  intro l
  induction l with
  | nil => intro p _ cl hcl; simp [mergeAux] at hcl
  | cons hd rest ih =>
    intro p hpair cl hcl
    obtain ⟨i, c1⟩ := hd
    have hpair' := List.pairwise_cons.mp hpair
    by_cases hip : i ∈ p
    · rw [show mergeAux sim t ((i, c1) :: rest) p = mergeAux sim t rest p from by
        simp [mergeAux, hip]] at hcl
      obtain ⟨hseed, hrec, habs⟩ := ih p hpair'.2 cl hcl
      exact ⟨List.mem_cons_of_mem _ hseed, hrec, habs⟩
    · rcases hsc : mergeScan sim t c1 rest (initMerged c1) [] p with ⟨a0, abs0, p0⟩
      obtain ⟨np, h1, h2, h3, h4⟩ := mergeScan_spec sim t c1 rest (initMerged c1) [] p
      rw [hsc] at h1 h2
      simp only at h1 h2
      have habs : np = abs0 := by simpa using h1.symm
      subst habs
      have hstep : mergeAux sim t ((i, c1) :: rest) p =
          { seed := (i, c1), absorbed := np, record := finalizeAcc a0 } ::
            mergeAux sim t rest (i :: p0) := by
        simp [mergeAux, hip, hsc]
      rw [hstep] at hcl
      rcases List.mem_cons.mp hcl with hcl | hcl
      · subst hcl
        refine ⟨List.mem_cons_self _ _, ⟨a0, rfl, ?_⟩, ?_⟩
        · have := mergeScan_nom sim t c1 rest (initMerged c1) [] p
          rw [hsc] at this
          simpa [initMerged] using this
        · intro q hq
          obtain ⟨hmem, _, hsim⟩ := h4 q hq
          exact ⟨hpair'.1 q hmem, hsim⟩
      · obtain ⟨hseed, hrec, habs⟩ := ih (i :: p0) hpair'.2 cl hcl
        exact ⟨List.mem_cons_of_mem _ hseed, hrec, habs⟩

/-- Every record of `merge_duplicate_clients` is a finalized accumulator
whose last name is the last name of some input record. -/
theorem merge_record_spec (sim : Client → Client → ℚ) (clients : List Client) (t : ℚ) :
    ∀ m ∈ merge_duplicate_clients sim clients t,
      ∃ acc : MergedAcc, m = finalizeAcc acc ∧ ∃ seed ∈ clients, acc.nom = seed.nom := by
  intro m hm
  unfold merge_duplicate_clients at hm
  split at hm
  · simp at hm
  · obtain ⟨cl, hcl, hrecord⟩ := List.mem_map.mp hm
    have hpair : List.Pairwise (fun a b : Nat × Client => a.1 < b.1) clients.enum := by
      have h := List.pairwise_lt_range clients.length
      rw [← List.enum_map_fst] at h
      exact List.pairwise_map.mp h
    obtain ⟨hseed, ⟨acc, hrec, hnom⟩, _⟩ :=
      mergeAux_cluster_spec sim t clients.enum [] hpair cl hcl
    refine ⟨acc, hrecord ▸ hrec, cl.seed.2, ?_, hnom⟩
    have := List.mem_map_of_mem Prod.snd hseed
    rwa [List.enum_map_snd] at this

/-- Claim C2: `merge_duplicate_clients` is the record projection of the
instrumented clustering, the member indices of the clusters contain every
input position exactly once (the clusters partition the input records), and
every non-seed member of a cluster is a strictly later record whose
similarity to the seed meets the threshold — so a record consumed by an
earlier cluster is never reconsidered.  Proved for an arbitrary similarity
function, hence for both files' variants. -/
theorem claim_C2_merge_partitions (sim : Client → Client → ℚ) (clients : List Client)
    (t : ℚ) :
    merge_duplicate_clients sim clients t = (mergeClusters sim clients t).map
      Cluster.record ∧
    (∀ k : Nat, List.count k ((mergeClusters sim clients t).flatMap Cluster.memberIdx) =
      if k < clients.length then 1 else 0) ∧
    ∀ cl ∈ mergeClusters sim clients t, ∀ q ∈ cl.absorbed,
      cl.seed.1 < q.1 ∧ t ≤ sim cl.seed.2 q.2 := by
  refine ⟨?_, ?_, ?_⟩
  · unfold merge_duplicate_clients
    split
    · rename_i h
      subst h
      simp [mergeClusters, mergeAux, List.enum]
    · rfl
  · intro k
    have hnd : (clients.enum.map Prod.fst).Nodup := by
      rw [List.enum_map_fst]
      exact List.nodup_range _
    have := mergeAux_count sim t clients.enum [] hnd List.nodup_nil k
    rw [show mergeClusters sim clients t = mergeAux sim t clients.enum [] from rfl, this]
    by_cases hk : k < clients.length
    · have hmem : k ∈ clients.enum.map Prod.fst := by
        rw [List.enum_map_fst]
        exact List.mem_range.mpr hk
      simp [hmem, hk]
    · have hmem : k ∉ clients.enum.map Prod.fst := by
        rw [List.enum_map_fst]
        exact fun hc => hk (List.mem_range.mp hc)
      simp [hmem, hk]
  · intro cl hcl q hq
    have hpair : List.Pairwise (fun a b : Nat × Client => a.1 < b.1) clients.enum := by
      have h := List.pairwise_lt_range clients.length
      rw [← List.enum_map_fst] at h
      exact List.pairwise_map.mp h
    exact (mergeAux_cluster_spec sim t clients.enum [] hpair cl hcl).2.2 q hq

/-- Witness for claim C2: on a concrete two-record input with a constant
similarity of 100 and threshold 85, index 0 appears exactly once among the
cluster members, and the absorbed pair of the concrete cluster is strictly
later than its seed and meets the threshold. -/
theorem claim_C2_witness :
    List.count 0 ((mergeClusters (fun _ _ => (100 : ℚ)) [exClient, exClient2]
      85).flatMap Cluster.memberIdx) = 1 ∧
    exCluster.seed.1 < (1, exClient2).1 ∧
      (85 : ℚ) ≤ (fun _ _ => (100 : ℚ)) exCluster.seed.2 (1, exClient2).2 := by
  have h := claim_C2_merge_partitions (fun _ _ => (100 : ℚ)) [exClient, exClient2] 85
  refine ⟨?_, ?_⟩
  · have hc := h.2.1 0
    simpa using hc
  · exact h.2.2 exCluster (by decide) (1, exClient2) (by decide)

/-! ### Claim C4: pipeline round-trip invariants -/

/-- Every raw record the table walker emits has a non-empty last name (rows
whose `parse_name` yields no last name are dropped, main.py 349-351). -/
theorem process_all_nom_ne (dp : List Char → Option PDate)
    (docs : List (List Char × List (List (List Cell)))) :
    ∀ c ∈ MainPy.process_all dp docs, c.nom ≠ [] := by
  intro c hc
  obtain ⟨doc, _, hc⟩ := List.mem_flatMap.mp hc
  obtain ⟨table, _, hc⟩ := List.mem_flatMap.mp hc
  cases hte : table.isEmpty with
  | true => rw [hte] at hc; simp at hc
  | false =>
    rw [hte] at hc
    simp only [Bool.false_eq_true, if_false] at hc
    obtain ⟨row, _, hc⟩ := List.mem_flatMap.mp hc
    cases row with
    | nil => simp [MainPy.processRow] at hc
    | cons nameCell dateCells =>
      simp only [MainPy.processRow] at hc
      split at hc
      · simp at hc
      · simp only [List.mem_filterMap] at hc
        obtain ⟨ct, hctmem, hct⟩ := hc
        rcases hpn : parse_name ct with ⟨nom, prenom, tel⟩
        rw [hpn] at hct
        simp only at hct
        split at hct
        · simp at hct
        · rename_i hnom
          have hrc := Option.some.inj hct
          rw [← hrc]
          exact hnom

/-- Claim C4: for every merged client record produced by the pipeline
(extraction over a batch of documents followed by deduplication with
main.py's similarity), the last name is non-empty and `nb_seances` equals
exactly the number of distinct dates in the record's visit-date set. -/
theorem claim_C4_pipeline_roundtrip (dp : List Char → Option PDate)
    (docs : List (List Char × List (List (List Cell)))) (t : ℚ) :
    ∀ m ∈ merge_duplicate_clients MainPy.calculate_similarity
        (MainPy.process_all dp docs) t,
      m.nom ≠ [] ∧ m.nb_seances = m.dates.toFinset.card := by
  intro m hm
  obtain ⟨acc, hrec, seed, hseed, hnom⟩ :=
    merge_record_spec MainPy.calculate_similarity (MainPy.process_all dp docs) t m hm
  constructor
  · rw [hrec]
    show (finalizeAcc acc).nom ≠ []
    have : (finalizeAcc acc).nom = acc.nom := rfl
    rw [this, hnom]
    exact process_all_nom_ne dp docs seed hseed
  · rw [hrec]
    show (sortedSet acc.dates).length = (sortedSet acc.dates).toFinset.card
    rw [List.card_toFinset, List.dedup_eq_self.mpr (sortedSet_nodup acc.dates)]

/-- Witness for claim C4 on a concrete one-document batch. -/
theorem claim_C4_witness :
    exMergedOut.nom ≠ [] ∧ exMergedOut.nb_seances = exMergedOut.dates.toFinset.card :=
  claim_C4_pipeline_roundtrip dpNone exDocs 85 exMergedOut (by decide)

/-! ### Claim C10: merged date lists are sorted lexicographically -/

/-- Claim C10: every record `merge_duplicate_clients` produces (for any
similarity function, input and threshold) carries a duplicate-free date list
sorted in ascending lexicographic order of the `DD/MM/YYYY` strings; this
order is keyed on the day digits first and is generally not chronological:
lexicographically `02/01/2025 ≤ 10/12/2024` although `10/12/2024` is the
chronologically earlier date. -/
theorem claim_C10_merged_dates_sorted :
    (∀ (sim : Client → Client → ℚ) (clients : List Client) (t : ℚ),
      ∀ m ∈ merge_duplicate_clients sim clients t,
        m.dates.Nodup ∧ m.dates.Sorted LexLe) ∧
    LexLe (chars (r"02/01/2025")) (chars (r"10/12/2024")) ∧
    chronVal (chars (r"10/12/2024")) < chronVal (chars (r"02/01/2025")) := by
  refine ⟨fun sim clients t m hm => ?_, by decide, by decide⟩
  obtain ⟨acc, hrec, -⟩ := merge_record_spec sim clients t m hm
  rw [hrec]
  exact ⟨sortedSet_nodup acc.dates, sortedSet_sorted acc.dates⟩

/-- Witness for claim C10 at a concrete singleton merge. -/
theorem claim_C10_witness :
    exMergedOut.dates.Nodup ∧ exMergedOut.dates.Sorted LexLe :=
  claim_C10_merged_dates_sorted.1 (fun _ _ => (100 : ℚ)) [exClient] 85 exMergedOut
    (by decide)

/-! ### Claim C1: the phone-equality boost -/

/-- Counterexample to claim C1 as stated for src/main.py: its
`calculate_similarity` applies no phone boost, so two records with equal
non-empty phones but dissimilar names score far below 95 (here 50/3 ≈ 16.7)
and `merge_duplicate_clients` keeps them in two separate clusters under the
default threshold 85. -/
theorem claim_C1_counterexample :
    exPhoneA.telephone ≠ [] ∧ exPhoneA.telephone = exPhoneB.telephone ∧
    MainPy.calculate_similarity exPhoneA exPhoneB < 95 ∧
    (merge_duplicate_clients MainPy.calculate_similarity [exPhoneA, exPhoneB]
      85).length = 2 := by
  have hsim : MainPy.calculate_similarity exPhoneA exPhoneB = 200 * (1 : ℚ) / 12 := by
    unfold MainPy.calculate_similarity
    rw [show lowerStr (strip (exPhoneA.nom ++ ' ' :: exPhoneA.prenom)) =
        chars (r"dupont") from by decide,
      show lowerStr (strip (exPhoneB.nom ++ ' ' :: exPhoneB.prenom)) =
        chars (r"martin") from by decide]
    unfold ratioScore
    rw [show lcsLen (chars (r"dupont")) (chars (r"martin")) = 1 from by decide,
      show (chars (r"dupont")).length = 6 from by decide,
      show (chars (r"martin")).length = 6 from by decide]
    norm_num
  have hlt : MainPy.calculate_similarity exPhoneA exPhoneB < 95 := by
    rw [hsim]; norm_num
  have hnle : ¬ (85 : ℚ) ≤ MainPy.calculate_similarity exPhoneA exPhoneB := by
    rw [hsim]; norm_num
  refine ⟨by decide, by decide, hlt, ?_⟩
  have henum : ([exPhoneA, exPhoneB] : List Client).enum =
      [(0, exPhoneA), (1, exPhoneB)] := rfl
  rw [show merge_duplicate_clients MainPy.calculate_similarity [exPhoneA, exPhoneB] 85 =
      (mergeClusters MainPy.calculate_similarity [exPhoneA, exPhoneB] 85).map
        Cluster.record from by
    unfold merge_duplicate_clients
    rw [if_neg (by decide : ¬ ([exPhoneA, exPhoneB] : List Client) = [])]]
  rw [show mergeClusters MainPy.calculate_similarity [exPhoneA, exPhoneB] 85 =
      mergeAux MainPy.calculate_similarity 85 [(0, exPhoneA), (1, exPhoneB)] [] from by
    rw [mergeClusters, henum]]
  rw [show mergeAux MainPy.calculate_similarity 85 [(0, exPhoneA), (1, exPhoneB)] [] =
      [{ seed := (0, exPhoneA), absorbed := [],
          record := finalizeAcc (initMerged exPhoneA) },
        { seed := (1, exPhoneB), absorbed := [],
          record := finalizeAcc (initMerged exPhoneB) }] from by
    simp [mergeAux, mergeScan, hnle]]
  rfl

/-- Claim C1 (amended to the variant that satisfies it): for every two client
records whose telephone fields are equal and non-empty, the similarity score
computed by the app's `calculate_similarity` is at least 95, and under the
default threshold 85 the app's `merge_duplicate_clients` merges the pair
into one cluster whatever their name similarity; main.py's
`calculate_similarity` applies no such boost (see the counterexample). -/
theorem claim_C1_app_phone_boost (c1 c2 : Client) (h1 : c1.telephone ≠ [])
    (h2 : c1.telephone = c2.telephone) :
    95 ≤ AppPy.calculate_similarity c1 c2 ∧
    (merge_duplicate_clients AppPy.calculate_similarity [c1, c2] 85).length = 1 := by
  have hsim : 95 ≤ AppPy.calculate_similarity c1 c2 := by
    unfold AppPy.calculate_similarity
    rw [if_pos ⟨h1, by rw [← h2]; exact h1, h2⟩]
    exact le_max_right _ _
  refine ⟨hsim, ?_⟩
  have h85 : (85 : ℚ) ≤ AppPy.calculate_similarity c1 c2 :=
    le_trans (by norm_num) hsim
  have henum : ([c1, c2] : List Client).enum = [(0, c1), (1, c2)] := rfl
  have hne : ¬ ([c1, c2] : List Client) = [] := by simp
  rw [show merge_duplicate_clients AppPy.calculate_similarity [c1, c2] 85 =
      (mergeClusters AppPy.calculate_similarity [c1, c2] 85).map Cluster.record from by
    unfold merge_duplicate_clients
    rw [if_neg hne]]
  rw [show mergeClusters AppPy.calculate_similarity [c1, c2] 85 =
      mergeAux AppPy.calculate_similarity 85 [(0, c1), (1, c2)] [] from by
    rw [mergeClusters, henum]]
  rw [show mergeAux AppPy.calculate_similarity 85 [(0, c1), (1, c2)] [] =
      [{ seed := (0, c1), absorbed := [(1, c2)],
          record := finalizeAcc (absorb (initMerged c1) c2) }] from by
    simp [mergeAux, mergeScan, h85]]
  rfl

/-- Witness for claim C1 at the concrete equal-phone pair. -/
theorem claim_C1_witness :
    95 ≤ AppPy.calculate_similarity exPhoneA exPhoneB ∧
    (merge_duplicate_clients AppPy.calculate_similarity [exPhoneA, exPhoneB]
      85).length = 1 :=
  claim_C1_app_phone_boost exPhoneA exPhoneB (by decide) (by decide)

/-! ### Claim C3: calendar ranges of parsed dates -/

theorem natToCharsGo_small (fuel n : Nat) (h : n < 10) :
    natToCharsGo (fuel + 1) n = [digitChar n] := by
  simp [natToCharsGo, h]

/-- For two-digit-bounded values, `pad2` renders exactly the tens and units
digits. -/
theorem pad2_eq (d : Nat) (h : d ≤ 99) :
    pad2 d = [digitChar (d / 10), digitChar (d % 10)] := by
  by_cases h10 : d < 10
  · have h1 : natToChars d = [digitChar d] := natToCharsGo_small d d h10
    have h2 : d / 10 = 0 := Nat.div_eq_of_lt h10
    have h3 : d % 10 = d := Nat.mod_eq_of_lt h10
    rw [pad2, h1]
    simp [h2, h3, digitChar]
  · have h10' : 10 ≤ d := not_lt.mp h10
    have hdiv : d / 10 < 10 := by omega
    have hsmall : ∀ fuel n : Nat, 1 ≤ fuel → n < 10 →
        natToCharsGo fuel n = [digitChar n] := by
      intro fuel n hf hn
      cases fuel with
      | zero => omega
      | succ f => exact natToCharsGo_small f n hn
    have h1 : natToChars d = [digitChar (d / 10), digitChar (d % 10)] := by
      rw [natToChars]
      rw [show natToCharsGo (d + 1) d =
          natToCharsGo d (d / 10) ++ [digitChar (d % 10)] from by
        simp [natToCharsGo, h10]]
      rw [hsmall d (d / 10) (by omega) hdiv]
      rfl
    rw [pad2, h1]
    rfl

theorem digitChar_injOn : ∀ a < 10, ∀ b < 10, digitChar a = digitChar b → a = b := by
  decide

/-- Counterexample to claim C3 as stated for src/main.py: its fallback date
regex checks only the year window, so the token `45/77/2020` — whose implied
day 45 and month 77 are far outside calendar range — is returned verbatim
rather than dropped; no in-range day/month/year renders to this string. -/
theorem claim_C3_counterexample :
    MainPy.parse_dates dpNone (chars (r"45/77/2020")) = [chars (r"45/77/2020")] ∧
    ¬ ∃ d m y, (1 ≤ d ∧ d ≤ 31 ∧ 1 ≤ m ∧ m ≤ 12 ∧ 2000 ≤ y ∧ y ≤ 2030) ∧
      chars (r"45/77/2020") = fmtDMY d m y := by
  refine ⟨by decide, ?_⟩
  rintro ⟨d, m, y, ⟨hd1, hd31, -, -, -, -⟩, heq⟩
  have hp : pad2 d = [digitChar (d / 10), digitChar (d % 10)] :=
    pad2_eq d (le_trans hd31 (by norm_num))
  rw [show fmtDMY d m y = pad2 d ++ '/' :: (pad2 m ++ '/' :: natToChars y) from rfl,
    hp] at heq
  have hlit : chars (r"45/77/2020") =
      '4' :: '5' :: '/' :: chars (r"77/2020") := rfl
  rw [hlit] at heq
  simp only [List.cons_append, List.nil_append, List.cons.injEq] at heq
  obtain ⟨h4, h5, -⟩ := heq
  have hdiv : d / 10 = 4 := by
    have := digitChar_injOn (d / 10) (by omega) 4 (by norm_num)
    exact this (by rw [← h4]; rfl)
  have hmod : d % 10 = 5 := by
    have := digitChar_injOn (d % 10) (by omega) 5 (by norm_num)
    exact this (by rw [← h5]; rfl)
  omega

/-- Claim C3 (amended to the variant that satisfies it): whenever the
`dateparser` collaborator only produces valid calendar dates (as Python
`datetime` guarantees), every date string returned by the app's `parse_dates`
renders an in-range date: day in [1, 31], month in [1, 12] and year in
[2000, 2030]; tokens implying a year outside the window, such as
`12/03/1987` or `12/03/2099`, are silently dropped.  main.py's `parse_dates`
enforces only the year window (see the counterexample). -/
theorem claim_C3_app_date_ranges (dp : List Char → Option PDate) (currentYear : Nat)
    (t : List Char)
    (hdp : ∀ s pd, dp s = some pd →
      1 ≤ pd.day ∧ pd.day ≤ 31 ∧ 1 ≤ pd.month ∧ pd.month ≤ 12) :
    (∀ ds ∈ AppPy.parse_dates dp currentYear t,
      ∃ d m y, (1 ≤ d ∧ d ≤ 31 ∧ 1 ≤ m ∧ m ≤ 12 ∧ 2000 ≤ y ∧ y ≤ 2030) ∧
        ds = fmtDMY d m y) ∧
    AppPy.parse_dates dpNone 2025 (chars (r"12/03/1987")) = [] ∧
    AppPy.parse_dates dpNone 2025 (chars (r"12/03/2099")) = [] := by
  refine ⟨?_, by decide, by decide⟩
  intro ds hds
  unfold AppPy.parse_dates at hds
  split at hds
  · simp at hds
  · have hds' := List.mem_dedup.mp hds
    obtain ⟨tok, -, hmem⟩ := List.mem_flatMap.mp hds'
    cases hdpv : dp tok with
    | some pd =>
      rw [hdpv] at hmem
      simp only at hmem
      split at hmem
      · rename_i hy
        obtain ⟨hd1, hd2, hm1, hm2⟩ := hdp tok pd hdpv
        have : ds = fmtDMY pd.day pd.month pd.year := by simpa using hmem
        exact ⟨pd.day, pd.month, pd.year, ⟨hd1, hd2, hm1, hm2, hy.1, hy.2⟩, this⟩
      · simp at hmem
    | none =>
      rw [hdpv] at hmem
      simp only at hmem
      cases hre : dateSearchApp tok with
      | none => rw [hre] at hmem; simp at hmem
      | some r =>
        obtain ⟨d, m, yO⟩ := r
        rw [hre] at hmem
        simp only at hmem
        split at hmem
        · rename_i hr
          obtain ⟨h1, h2, h3, h4, h5, h6⟩ := hr
          have hdsv : ds = fmtDMY d m (appYear currentYear yO) := by
            simpa using hmem
          exact ⟨d, m, appYear currentYear yO, ⟨h1, h2, h3, h4, h5, h6⟩, hdsv⟩
        · simp at hmem

/-- Witness for claim C3 at a concrete accepted token. -/
theorem claim_C3_witness :
    ∃ d m y, (1 ≤ d ∧ d ≤ 31 ∧ 1 ≤ m ∧ m ≤ 12 ∧ 2000 ≤ y ∧ y ≤ 2030) ∧
      chars (r"12/03/2024") = fmtDMY d m y :=
  (claim_C3_app_date_ranges dpNone 2025 (chars (r"12/03/2024"))
    (fun s pd h => by simp [dpNone] at h)).1 (chars (r"12/03/2024")) (by decide)

/-! ### Claim C6: name tokenization of `parse_name` -/

/-- Counterexample to claim C6 as stated: the input `1/2 ab cd` has a
cleaned, phone-stripped text that splits into four tokens, yet `parse_name`
returns the empty triple — the leading-date guard of `is_valid_name` rejects
the raw input before tokenization ever happens, so the first token is not
returned as the last name. -/
theorem claim_C6_counterexample :
    splitWs (cleanedOf (strip (chars (r"1/2 ab cd")))) =
      [chars (r"1"), chars (r"2"), chars (r"ab"), chars (r"cd")] ∧
    parse_name (chars (r"1/2 ab cd")) = ([], [], []) ∧
    (parse_name (chars (r"1/2 ab cd"))).1 ≠ title (chars (r"1")) := by
  refine ⟨by decide, by decide, by decide⟩

/-- Claim C6 (amended with the validity guards the code applies first): for
every input that passes the plausible-name check and whose cleaned,
phone-stripped text also passes it and splits into two or more
whitespace-separated tokens, `parse_name` returns the first token in title
case as the last name and the second token in title case as the first name,
discarding later tokens, together with the extracted phone; in particular
`parse_name "Dupont Marie 0601020304"` yields
(`"Dupont"`, `"Marie"`, `"0601020304"`). -/
theorem claim_C6_parse_name_tokens :
    (∀ (t w1 w2 : List Char) (ws : List (List Char)),
      is_valid_name (strip t) = true →
      is_valid_name (cleanedOf (strip t)) = true →
      splitWs (cleanedOf (strip t)) = w1 :: w2 :: ws →
      parse_name t = (title w1, title w2, (extract_phone_from_text (strip t)).2)) ∧
    parse_name (chars (r"Dupont Marie 0601020304")) =
      (chars (r"Dupont"), chars (r"Marie"), chars (r"0601020304")) := by
  refine ⟨?_, by decide⟩
  intro t w1 w2 ws h1 h2 h3
  have ht : t ≠ [] := by
    intro hc
    subst hc
    exact absurd h1 (by decide)
  have hcl : cleanedOf (strip t) ≠ [] := by
    intro hc
    rw [hc] at h3
    rw [show splitWs ([] : List Char) = [] from rfl] at h3
    exact List.cons_ne_nil _ _ h3.symm
  rw [parse_name, if_neg ht]
  simp only [h1, not_true_eq_false, if_false, ite_false]
  rw [if_neg hcl]
  simp only [h2, not_true_eq_false, if_false, ite_false]
  rw [h3]

/-- Witness for claim C6 at the concrete example input. -/
theorem claim_C6_witness :
    parse_name (chars (r"Dupont Marie 0601020304")) =
      (title (chars (r"Dupont")), title (chars (r"Marie")),
        (extract_phone_from_text (strip (chars (r"Dupont Marie 0601020304")))).2) :=
  claim_C6_parse_name_tokens.1 (chars (r"Dupont Marie 0601020304"))
    (chars (r"Dupont")) (chars (r"Marie")) [] (by decide) (by decide) (by decide)
